import Mathlib

set_option maxRecDepth 2000

/-!
Verification development for the Glare worker agent
(`apps/worker/src/main.rs`): the cron evaluator, the per-minute
execution-dedup guard, and the durable bounded retrying report queue.

Rust string handling is modelled over `List Char` (a Rust `&str` is a
sequence of characters; the byte/char distinction is irrelevant here since
all the scrutinised characters are ASCII).  Rust `HashSet<String>` is
modelled as a `List String` whose membership relation is what the code
observes; the set discipline (no duplicate is ever inserted) is preserved
because the code only inserts after a negative `contains` check.
`u32`/`u64` values are modelled as `Nat` with explicit `2 ^ 32` / `2 ^ 64`
bounds where the Rust integer parsers and serde enforce them.
-/

namespace Glare

/-! ## Character-level utilities, modelling Rust `str` methods -/

/-- Models Rust `str::split_whitespace` (restricted to ASCII whitespace):
splits on maximal runs of whitespace, producing no empty tokens. -/
def splitWSAux : List Char → List Char → List (List Char)
  | [], acc => if acc.isEmpty then [] else [acc.reverse]
  | c :: cs, acc =>
    if c.isWhitespace then
      if acc.isEmpty then splitWSAux cs [] else acc.reverse :: splitWSAux cs []
    else splitWSAux cs (c :: acc)

/-- Tokens of a string split on whitespace, as `str::split_whitespace`. -/
def splitWhitespace (s : String) : List (List Char) :=
  splitWSAux s.data []

/-- Models Rust `str::split(sep)`: splits on every separator occurrence,
keeping empty pieces (so splitting the empty string yields one empty piece). -/
def splitSepAux (sep : Char) : List Char → List Char → List (List Char)
  | [], acc => [acc.reverse]
  | c :: cs, acc =>
    if c = sep then acc.reverse :: splitSepAux sep cs []
    else splitSepAux sep cs (c :: acc)

/-- Split a character list at every occurrence of `sep`. -/
def splitSep (sep : Char) (l : List Char) : List (List Char) :=
  splitSepAux sep l []

/-- Models Rust `str::split_once(sep)`: splits at the first occurrence of
`sep`, returning `none` when `sep` does not occur. -/
def splitOnce (sep : Char) : List Char → Option (List Char × List Char)
  | [] => none
  | c :: cs =>
    if c = sep then some ([], cs)
    else (splitOnce sep cs).map (fun p => (c :: p.1, p.2))

/-- Models Rust `str::trim` (ASCII whitespace). -/
def trimLC (l : List Char) : List Char :=
  ((l.dropWhile Char.isWhitespace).reverse.dropWhile Char.isWhitespace).reverse

/-- Numeric value of a list of decimal digit characters, most significant
first. -/
def digitsVal (l : List Char) : Nat :=
  l.foldl (fun acc c => acc * 10 + (c.toNat - 48)) 0

/-- Models Rust `str::parse::<u32>()` (`u32::from_str`): an optional leading
`+` sign followed by one or more ASCII digits, rejecting values that
overflow 32 bits. -/
def parseU32 (l : List Char) : Option Nat :=
  let body := match l with
    | '+' :: rest => rest
    | _ => l
  if body.isEmpty then none
  else if body.all Char.isDigit then
    if digitsVal body < 2 ^ 32 then some (digitsVal body) else none
  else none

/-! ## Cron field parsing (`parse_cron_field`) -/

/-- Structural-fuel version of the value-generation loop of
`parse_cron_field`: with `fuel ≥ hi + 1 - lo` and `step ≥ 1` it yields
`lo, lo + step, …` up to `hi`, exactly as the Rust `while` loop does.
(The fuel only serves structural termination; every caller supplies enough
of it and has rejected `step = 0`, under which the Rust loop would not
terminate.  The Rust loop's `checked_add` break cannot drop a value below
`hi` because `hi ≤ 59 < 2^32`.) -/
def rangeValuesAux (hi step : Nat) : Nat → Nat → List Nat
  | 0, _ => []
  | fuel + 1, lo =>
    if lo ≤ hi then lo :: rangeValuesAux hi step fuel (lo + step) else []

/-- Values `lo, lo + step, lo + 2*step, …` up to `hi`; the loop body of
`parse_cron_field`. -/
def rangeValues (lo hi step : Nat) : List Nat :=
  rangeValuesAux hi step (hi + 1 - lo) lo

/-- One comma-separated chunk of a cron field, as processed by the loop body
of `parse_cron_field` in `main.rs`: trim, reject empty, split an optional
`/step` suffix, parse the base (`*`, a single value, or `a-b`), validate the
range against the field bounds, and generate the covered values. -/
def parseCronChunk (minB maxB : Nat) (chunkRaw : List Char) : Option (List Nat) :=
  let chunk := trimLC chunkRaw
  if chunk.isEmpty then none
  else
    let baseStep : List Char × Option (List Char) :=
      match splitOnce '/' chunk with
      | some p => (p.1, some p.2)
      | none => (chunk, none)
    let stepRes : Option Nat :=
      match baseStep.2 with
      | some stepStr => parseU32 stepStr
      | none => some 1
    match stepRes with
    | none => none
    | some step =>
      if step = 0 then none
      else
        let rangeRes : Option (Nat × Nat) :=
          if baseStep.1 = ['*'] then some (minB, maxB)
          else
            match splitOnce '-' baseStep.1 with
            | some p =>
              match parseU32 p.1, parseU32 p.2 with
              | some lo, some hi => some (lo, hi)
              | _, _ => none
            | none =>
              match parseU32 baseStep.1 with
              | some v => some (v, v)
              | none => none
        match rangeRes with
        | none => none
        | some r =>
          if r.1 < minB ∨ r.2 > maxB ∨ r.1 > r.2 then none
          else some (rangeValues r.1 r.2 step)

/-- Fold of `parseCronChunk` over the comma-separated chunks: any failing
chunk rejects the whole field, otherwise the generated values accumulate
(the Rust `HashSet` is modelled by the concatenated list; only membership
is ever observed). -/
def parseChunks (minB maxB : Nat) : List (List Char) → Option (List Nat)
  | [] => some []
  | c :: cs => do
    let vs ← parseCronChunk minB maxB c
    let rest ← parseChunks minB maxB cs
    pure (vs ++ rest)

/-- Models `parse_cron_field(raw, min, max)`. -/
def parse_cron_field (raw : List Char) (minB maxB : Nat) : Option (List Nat) :=
  parseChunks minB maxB (splitSep ',' raw)

/-- Models the Rust `ParsedCron` struct. -/
structure ParsedCron where
  minute : List Nat
  hour : List Nat
  day_of_month : List Nat
  month : List Nat
  day_of_week : List Nat
  is_day_of_month_wildcard : Bool
  is_day_of_week_wildcard : Bool
deriving DecidableEq

/-- Models `parse_cron_expression`: exactly 5 whitespace-separated fields,
parsed with the per-field bounds, recording whether the day fields were
literally `*`. -/
def parse_cron_expression (cron : String) : Option ParsedCron :=
  match splitWhitespace cron with
  | [minuteF, hourF, domF, monthF, dowF] => do
    let minute ← parse_cron_field minuteF 0 59
    let hour ← parse_cron_field hourF 0 23
    let dayOfMonth ← parse_cron_field domF 1 31
    let month ← parse_cron_field monthF 1 12
    let dayOfWeek ← parse_cron_field dowF 0 6
    pure
      { minute := minute
        hour := hour
        day_of_month := dayOfMonth
        month := month
        day_of_week := dayOfWeek
        is_day_of_month_wildcard := domF = ['*']
        is_day_of_week_wildcard := dowF = ['*'] }
  | _ => none

/-! ## Cron matching (`cron_matches_now`) -/

/-- The components of a local instant that `cron_matches_now` reads from
`chrono`: minute, hour, day of month (1-based), month (1-based), and the
weekday as `num_days_from_sunday` (0 = Sunday). -/
structure LocalInstant where
  minute : Nat
  hour : Nat
  day : Nat
  month : Nat
  weekday : Nat

/-- Models `cron_matches_now`, abstracted over the instant it reads from
`Local::now()`: minute, hour and month must be members of their sets, then
the day-of-month and day-of-week fields combine by the wildcard rules. -/
def cron_matches_at (p : ParsedCron) (t : LocalInstant) : Bool :=
  if t.minute ∉ p.minute ∨ t.hour ∉ p.hour ∨ t.month ∉ p.month then false
  else
    let domMatch : Bool := decide (t.day ∈ p.day_of_month)
    let dowMatch : Bool := decide (t.weekday ∈ p.day_of_week)
    if p.is_day_of_month_wildcard ∧ p.is_day_of_week_wildcard then true
    else if p.is_day_of_month_wildcard then dowMatch
    else if p.is_day_of_week_wildcard then domMatch
    else domMatch || dowMatch

/-! ## Local calendar time, modelling the `chrono` civil clock used by
`compute_next_run_at` (local time without zone transitions) -/

/-- Gregorian leap-year rule. -/
def isLeapYear (y : Nat) : Bool :=
  (y % 4 = 0 && y % 100 ≠ 0) || y % 400 = 0

/-- Days in a month of the Gregorian calendar (month is 1-based). -/
def daysInMonth (y m : Nat) : Nat :=
  if m = 2 then (if isLeapYear y then 29 else 28)
  else if m = 4 ∨ m = 6 ∨ m = 9 ∨ m = 11 then 30
  else 31

/-- A civil local datetime at second resolution (what the scan in
`compute_next_run_at` manipulates). -/
structure LocalDateTime where
  year : Nat
  month : Nat
  day : Nat
  hour : Nat
  minute : Nat
  second : Nat
deriving DecidableEq

/-- Adding one minute of civil time, with minute/hour/day/month rollover;
models `cursor + ChronoDuration::minutes(1)` away from zone transitions.
Seconds are unaffected. -/
def addOneMinute (t : LocalDateTime) : LocalDateTime :=
  if t.minute + 1 ≤ 59 then { t with minute := t.minute + 1 }
  else if t.hour + 1 ≤ 23 then { t with minute := 0, hour := t.hour + 1 }
  else if t.day + 1 ≤ daysInMonth t.year t.month then
    { t with minute := 0, hour := 0, day := t.day + 1 }
  else if t.month + 1 ≤ 12 then
    { t with minute := 0, hour := 0, day := 1, month := t.month + 1 }
  else
    { t with minute := 0, hour := 0, day := 1, month := 1, year := t.year + 1 }

/-- Models `with_second(0)` (which always succeeds for the value 0). -/
def withSecondZero (t : LocalDateTime) : LocalDateTime :=
  { t with second := 0 }

/-- Day number of a Gregorian date counted from 0000-03-01 (Hinnant's
`days_from_civil`, specialised to `Nat` for years ≥ 1). -/
def daysFromCivil (y m d : Nat) : Nat :=
  let yAdj := if m ≤ 2 then y - 1 else y
  let mp := if m ≤ 2 then m + 9 else m - 3
  let era := yAdj / 400
  let yoe := yAdj % 400
  let doy := (153 * mp + 2) / 5 + d - 1
  let doe := yoe * 365 + yoe / 4 - yoe / 100 + doy
  era * 146097 + doe

/-- Weekday of a civil date as days-from-Sunday (0 = Sunday); models
`chrono`'s `weekday().num_days_from_sunday()`. -/
def weekdayOf (y m d : Nat) : Nat :=
  (daysFromCivil y m d + 3) % 7

/-- The instant components `cron_matches_now` / the scan loop read from a
civil datetime. -/
def toInstant (t : LocalDateTime) : LocalInstant :=
  { minute := t.minute
    hour := t.hour
    day := t.day
    month := t.month
    weekday := weekdayOf t.year t.month t.day }

/-- The scan loop of `compute_next_run_at`: check up to `fuel` successive
minute candidates, returning the first that matches.  The loop body in
`main.rs` duplicates the matching logic of `cron_matches_now` verbatim, so
it is expressed through `cron_matches_at`. -/
def nextRunScan (p : ParsedCron) : Nat → LocalDateTime → Option LocalDateTime
  | 0, _ => none
  | fuel + 1, cursor =>
    if cron_matches_at p (toInstant cursor) then some cursor
    else nextRunScan p fuel (addOneMinute cursor)

/-- Models `compute_next_run_at(cron)`, abstracted over the `Local::now()`
instant: parse the spec, start at `now + 1` minute with seconds zeroed, and
scan at most `60 * 24 * 366` candidate minutes.  (The Rust function renders
the found instant to RFC3339; the model returns the instant itself.) -/
def compute_next_run_at (cron : String) (now : LocalDateTime) : Option LocalDateTime :=
  match parse_cron_expression cron with
  | none => none
  | some p => nextRunScan p (60 * 24 * 366) (withSecondZero (addOneMinute now))

/-- The candidate instants examined by `compute_next_run_at` from `now`:
`now + 1, now + 2, …` minutes (seconds zeroed), `60 * 24 * 366` of them. -/
def minuteCandidates (now : LocalDateTime) : List LocalDateTime :=
  (List.range (60 * 24 * 366)).map
    (fun i => addOneMinute^[i] (withSecondZero (addOneMinute now)))

/-! ## JSON documents and the serde encodings of the report types

The `serde_json` string layer is modelled at the JSON-value level: a
persisted file holds the JSON document produced by serialization, and
deserialization reads such a document back.  JSON numbers are modelled as
integers (`Int`), which covers every number the worker itself writes
(`durationMs`, `attempts`). -/

/-- JSON values (`serde_json::Value`), with integral numbers. -/
inductive JValue where
  | null
  | bool (b : Bool)
  | num (n : Int)
  | str (s : String)
  | arr (xs : List JValue)
  | obj (fields : List (String × JValue))

/-- Models the Rust `BackupPlanReportRequest` struct (the report payload). -/
structure BackupPlanReportRequest where
  status : String
  error : Option String
  duration_ms : Nat
  snapshot_id : Option String
  snapshot_time : Option String
  next_run_at : Option String
  output : JValue

/-- Models the Rust `PendingReport` struct. -/
structure PendingReport where
  url : String
  payload : BackupPlanReportRequest
  attempts : Nat

/-- Serde serialization of `Option<String>`: `None` is `null`. -/
def encodeOptStr : Option String → JValue
  | none => .null
  | some s => .str s

/-- Serde deserialization of `Option<String>`. -/
def decodeOptStr : JValue → Option (Option String)
  | .null => some none
  | .str s => some (some s)
  | _ => none

/-- Serde deserialization of a `String` field. -/
def decodeStr : JValue → Option String
  | .str s => some s
  | _ => none

/-- Serde deserialization of a `u64` field: an integer in `[0, 2^64)`. -/
def decodeU64 : JValue → Option Nat
  | .num n => if 0 ≤ n ∧ n < Int.ofNat (2 ^ 64) then some n.toNat else none
  | _ => none

/-- Serde deserialization of a `u32` field: an integer in `[0, 2^32)`. -/
def decodeU32 : JValue → Option Nat
  | .num n => if 0 ≤ n ∧ n < Int.ofNat (2 ^ 32) then some n.toNat else none
  | _ => none

/-- Derived serde serialization of `BackupPlanReportRequest`
(`rename_all = "camelCase"`, fields in declaration order). -/
def encodeReport (r : BackupPlanReportRequest) : JValue :=
  .obj
    [("status", .str r.status),
     ("error", encodeOptStr r.error),
     ("durationMs", .num (Int.ofNat r.duration_ms)),
     ("snapshotId", encodeOptStr r.snapshot_id),
     ("snapshotTime", encodeOptStr r.snapshot_time),
     ("nextRunAt", encodeOptStr r.next_run_at),
     ("output", r.output)]

/-- Derived serde deserialization of `BackupPlanReportRequest`: every field
must be present (none has a default); a `Value` field accepts any JSON
value. -/
def decodeReport (j : JValue) : Option BackupPlanReportRequest :=
  match j with
  | .obj fs => do
    let status ← (fs.lookup "status").bind decodeStr
    let error ← (fs.lookup "error").bind decodeOptStr
    let durationMs ← (fs.lookup "durationMs").bind decodeU64
    let snapshotId ← (fs.lookup "snapshotId").bind decodeOptStr
    let snapshotTime ← (fs.lookup "snapshotTime").bind decodeOptStr
    let nextRunAt ← (fs.lookup "nextRunAt").bind decodeOptStr
    let output ← fs.lookup "output"
    pure
      { status := status
        error := error
        duration_ms := durationMs
        snapshot_id := snapshotId
        snapshot_time := snapshotTime
        next_run_at := nextRunAt
        output := output }
  | _ => none

/-- Derived serde serialization of `PendingReport`. -/
def encodePending (p : PendingReport) : JValue :=
  .obj
    [("url", .str p.url),
     ("payload", encodeReport p.payload),
     ("attempts", .num (Int.ofNat p.attempts))]

/-- Derived serde deserialization of `PendingReport`. -/
def decodePending (j : JValue) : Option PendingReport :=
  match j with
  | .obj fs => do
    let url ← (fs.lookup "url").bind decodeStr
    let payload ← (fs.lookup "payload").bind decodeReport
    let attempts ← (fs.lookup "attempts").bind decodeU32
    pure { url := url, payload := payload, attempts := attempts }
  | _ => none

/-- The field list of an encoded `BackupPlanReportRequest`, named so that
per-field lookup lemmas can be stated (definitionally equal to the list
inside `encodeReport`). -/
def reportFields (st : String) (er : Option String) (du : Nat)
    (si stt nra : Option String) (out : JValue) : List (String × JValue) :=
  [("status", JValue.str st), ("error", encodeOptStr er),
   ("durationMs", JValue.num (Int.ofNat du)), ("snapshotId", encodeOptStr si),
   ("snapshotTime", encodeOptStr stt), ("nextRunAt", encodeOptStr nra),
   ("output", out)]

/-- The field list of an encoded `PendingReport`. -/
def pendingFields (url : String) (r : BackupPlanReportRequest) (a : Nat) :
    List (String × JValue) :=
  [("url", JValue.str url), ("payload", encodeReport r),
   ("attempts", JValue.num (Int.ofNat a))]

/-- Serialization of `Vec<PendingReport>`. -/
def encodePendingList (l : List PendingReport) : JValue :=
  .arr (l.map encodePending)

/-- Deserialization of `Vec<PendingReport>`. -/
def decodePendingList : JValue → Option (List PendingReport)
  | .arr xs => xs.mapM decodePending
  | _ => none

/-- The bounds serde enforces on the integer fields of an entry (`u64`
duration, `u32` attempts); every entry the worker actually builds satisfies
them. -/
def EntryInBounds (p : PendingReport) : Prop :=
  p.payload.duration_ms < 2 ^ 64 ∧ p.attempts < 2 ^ 32

/-- Models `save_pending_reports`: the JSON document written (whole-file
overwrite) is the serialization of the full entry list. -/
def save_pending_reports (reports : List PendingReport) : JValue :=
  encodePendingList reports

/-- Models `load_pending_reports`.  The file argument is `none` when the
state file is missing or unreadable (`fs::read_to_string` error), and
`some none` when the file exists but its text is not a well-formed JSON
document; `some (some doc)` is a readable file parsing to `doc`.  A parse
or shape failure is logged and yields the empty queue; no error
propagates. -/
def load_pending_reports (file : Option (Option JValue)) : List PendingReport :=
  match file with
  | none => []
  | some none => []
  | some (some doc) =>
    match decodePendingList doc with
    | some reports => reports
    | none => []

/-! ## The pending-report queue operations -/

/-- Queue capacity (`PENDING_REPORTS_MAX`). -/
def PENDING_REPORTS_MAX : Nat := 500

/-- Retry budget (`PENDING_REPORT_MAX_ATTEMPTS`). -/
def PENDING_REPORT_MAX_ATTEMPTS : Nat := 20

/-- Models `enqueue_pending_report`: when the queue is at (or past)
capacity, `remove(0)` drops the front (oldest) entry, then the new entry is
pushed at the back. -/
def enqueue_pending_report (queue : List PendingReport) (report : PendingReport) :
    List PendingReport :=
  let q := if queue.length ≥ PENDING_REPORTS_MAX then queue.drop 1 else queue
  q ++ [report]

/-- Models the per-entry retry loop of one `flush_pending_reports_loop`
pass over the drained items: a delivered entry is dropped; a failed entry
has `attempts` incremented and is dropped once the incremented count
exceeds the budget, else appended to `still_pending` (iteration order
preserved).  `deliver` abstracts the outcome of the HTTP delivery call. -/
def flush_process (deliver : PendingReport → Bool) :
    List PendingReport → List PendingReport
  | [] => []
  | item :: rest =>
    if deliver item then flush_process deliver rest
    else
      let item1 : PendingReport := { item with attempts := item.attempts + 1 }
      if item1.attempts > PENDING_REPORT_MAX_ATTEMPTS then flush_process deliver rest
      else item1 :: flush_process deliver rest

/-- Repeated flush passes, with a (possibly different) delivery outcome
oracle per pass; pass `i` uses `deliver i`.  Models successive iterations
of the 30-second flush loop on a queue nothing else touches. -/
def flushIter (deliver : Nat → PendingReport → Bool) (q : List PendingReport) :
    Nat → List PendingReport
  | 0 => q
  | n + 1 => flushIter (fun i => deliver (i + 1)) (flush_process (deliver 0) q) n

/-- Total number of delivery attempts made during `n` flush passes: each
pass attempts every drained entry exactly once. -/
def flushAttemptsMade (deliver : Nat → PendingReport → Bool) (q : List PendingReport) :
    Nat → Nat
  | 0 => 0
  | n + 1 =>
    q.length + flushAttemptsMade (fun i => deliver (i + 1)) (flush_process (deliver 0) q) n

/-- Models the re-insertion step after a flush pass (`for item in
still_pending { if queue.len() < PENDING_REPORTS_MAX { queue.push(item) } }`):
each surviving item is appended only while the queue (which may have
received concurrent enqueues) is below capacity. -/
def reinsert_pending (queue stillPending : List PendingReport) : List PendingReport :=
  stillPending.foldl
    (fun q item => if q.length < PENDING_REPORTS_MAX then q ++ [item] else q) queue

/-- Length of the entry list held by a persisted queue document. -/
def docEntryCount : JValue → Nat
  | .arr xs => xs.length
  | _ => 0

/-! ## The tick dedup guard -/

/-- Decimal digit characters of `n`, most significant first; models the
decimal rendering used by `chrono`'s `format` specifiers. -/
def natDigits (n : Nat) : List Char :=
  if _h : n < 10 then [Char.ofNat (48 + n)]
  else natDigits (n / 10) ++ [Char.ofNat (48 + n % 10)]
termination_by n
decreasing_by exact Nat.div_lt_self (by omega) (by omega)

/-- Zero-padded decimal rendering to width `w` (exact for `n < 10 ^ w`);
models `chrono`'s `%Y`, `%m`, `%d`, `%H`, `%M` specifiers. -/
def padDigits (w n : Nat) : List Char :=
  List.replicate (w - (natDigits n).length) '0' ++ natDigits n

/-- The calendar-minute stamp `now.format("%Y%m%d%H%M")`. -/
def minuteStamp (t : LocalDateTime) : String :=
  String.mk
    (padDigits 4 t.year ++ padDigits 2 t.month ++ padDigits 2 t.day ++
      padDigits 2 t.hour ++ padDigits 2 t.minute)

/-- Bounds under which the `%Y%m%d%H%M` stamp has fixed field widths
(every real calendar minute satisfies them). -/
def StampInBounds (t : LocalDateTime) : Prop :=
  t.year < 10000 ∧ t.month < 100 ∧ t.day < 100 ∧ t.hour < 100 ∧ t.minute < 100

/-- The dedup key `format!("{}:{}", plan.id, stamp)`. -/
def dedupKey (planId stamp : String) : String :=
  planId ++ ":" ++ stamp

/-- Models the check-and-insert critical section of
`execute_synced_backup_plans_loop` (lines 2239–2254 of `main.rs`): if the
guard holds more than 20 000 keys it is cleared entirely; then the key is
looked up, and inserted (returning `true`) exactly when absent.  The
`HashSet<String>` is modelled as a duplicate-free `List String`. -/
def shouldDispatch (key : String) (executed : List String) : Bool × List String :=
  let executed1 := if executed.length > 20000 then [] else executed
  if key ∈ executed1 then (false, executed1)
  else (true, key :: executed1)

/-- Guard state after `n` successive `shouldDispatch` calls with the same
key (the repeated ticks of one plan within one calendar minute). -/
def dispatchState (key : String) (s : List String) : Nat → List String
  | 0 => s
  | n + 1 => (shouldDispatch key (dispatchState key s n)).2

/-! ## The spec's grammar of valid cron strings

These definitions follow the wording of the specification (§4.1), to be
compared with the parser translated from the source: a valid spec has
exactly 5 whitespace-separated fields, each a comma-separated list of `*`,
a single integer, or a range `a-b`, any of them optionally suffixed
`/step` with `step ≥ 1`, all values within the field's bounds and `a ≤ b`.
The grammar is parametrised by the notion of "integer": the claim's
literal reading (`litIntP`: any digit string) and the amended one
(`parseU32`: digits with optional `+` sign, value below `2 ^ 32`).  A
well-formed range item contains exactly one `-` (integers contain none),
so splitting at the first occurrence decomposes it faithfully. -/

/-- A claim-literal integer: one or more decimal digits, any value. -/
def litIntP (l : List Char) : Option Nat :=
  if !l.isEmpty && l.all Char.isDigit then some (digitsVal l) else none

/-- Validity of one comma-separated item of a field under the grammar,
with `intP` deciding what an integer is. -/
def specChunkOkWith (intP : List Char → Option Nat) (minB maxB : Nat)
    (chunk : List Char) : Bool :=
  let baseStep : List Char × Bool :=
    match splitOnce '/' chunk with
    | some p =>
      (p.1, match intP p.2 with
            | some st => decide (1 ≤ st)
            | none => false)
    | none => (chunk, true)
  baseStep.2 &&
    (decide (baseStep.1 = ['*']) ||
      (match splitOnce '-' baseStep.1 with
       | some p =>
         match intP p.1, intP p.2 with
         | some lo, some hi =>
           decide (minB ≤ lo) && decide (lo ≤ hi) && decide (hi ≤ maxB)
         | _, _ => false
       | none =>
         match intP baseStep.1 with
         | some v => decide (minB ≤ v) && decide (v ≤ maxB)
         | none => false))

/-- Validity of one field: every comma-separated item is valid. -/
def specFieldOkWith (intP : List Char → Option Nat) (minB maxB : Nat)
    (field : List Char) : Bool :=
  (splitSep ',' field).all (specChunkOkWith intP minB maxB)

/-- Validity of a whole cron string under the grammar: exactly 5
whitespace-separated fields, each valid for its bounds. -/
def specCronValidWith (intP : List Char → Option Nat) (cron : String) : Bool :=
  match splitWhitespace cron with
  | [f1, f2, f3, f4, f5] =>
    specFieldOkWith intP 0 59 f1 && specFieldOkWith intP 0 23 f2 &&
      specFieldOkWith intP 1 31 f3 && specFieldOkWith intP 1 12 f4 &&
      specFieldOkWith intP 0 6 f5
  | _ => false

/-- The claim's literal grammar: integers are bare digit strings of any
value. -/
def specCronValidLit (cron : String) : Bool :=
  specCronValidWith litIntP cron

/-- The amended grammar: integers are 32-bit unsigned decimal literals
(optional `+` sign, value below `2 ^ 32`), as Rust's `u32` parsing
accepts. -/
def specCronValid (cron : String) : Bool :=
  specCronValidWith parseU32 cron

/-! ## Concrete sample data used by witnesses and counterexamples -/

/-- A sample report payload. -/
def sampleReport : BackupPlanReportRequest :=
  { status := "success"
    error := none
    duration_ms := 1000
    snapshot_id := none
    snapshot_time := none
    next_run_at := none
    output := .null }

/-- A sample pending entry, as first enqueued (one delivery attempt made). -/
def sampleEntry : PendingReport :=
  { url := "http://master/api/workers/backup-plans/p1/report"
    payload := sampleReport
    attempts := 1 }

/-- A sample pending entry with a chosen attempt count. -/
def entryA (a : Nat) : PendingReport :=
  { url := "u", payload := sampleReport, attempts := a }

/-- A full second report payload exercising the `Some` branches. -/
def sampleReport2 : BackupPlanReportRequest :=
  { status := "failed"
    error := some "boom"
    duration_ms := 42
    snapshot_id := some "snap1"
    snapshot_time := some "2024-01-01T02:30:00Z"
    next_run_at := some "2024-01-02T02:30:00+00:00"
    output := .obj [("ok", .bool false), ("n", .num 3)] }

/-- A second sample pending entry. -/
def sampleEntry2 : PendingReport :=
  { url := "http://master/api/workers/backup-plans/p2/report"
    payload := sampleReport2
    attempts := 7 }

/-- `n` pairwise distinct key strings (the decimal renderings of
`0, …, n-1`), standing for a dedup-guard population of `n` distinct
previously dispatched keys. -/
def manyKeys (n : Nat) : List String :=
  (List.range n).map (fun i => String.mk (natDigits i))

/-- The parsed form of `"0 0 1 * 1"`. -/
def cronP1 : ParsedCron :=
  { minute := [0]
    hour := [0]
    day_of_month := [1]
    month := [1, 2, 3, 4, 5, 6, 7, 8, 9, 10, 11, 12]
    day_of_week := [1]
    is_day_of_month_wildcard := false
    is_day_of_week_wildcard := false }

/-! ## Helper lemmas -/

theorem enqueue_length_le (q : List PendingReport) (r : PendingReport)
    (h : q.length ≤ 500) : (enqueue_pending_report q r).length ≤ 500 := by
  simp only [enqueue_pending_report, PENDING_REPORTS_MAX]
  split <;> simp <;> omega

/-! ## Claim theorems -/

/-- C5: starting from a queue of at most 500 entries, no sequence of
enqueue operations ever pushes the pending-report queue past 500 entries;
and an enqueue arriving with the queue at capacity removes exactly the
single oldest (front) entry and appends the new entry at the back. -/
theorem queue_capacity_bound :
    (∀ q : List PendingReport, q.length ≤ 500 →
      ∀ rs : List PendingReport, (rs.foldl enqueue_pending_report q).length ≤ 500) ∧
    (∀ (q : List PendingReport) (r : PendingReport), q.length = 500 →
      enqueue_pending_report q r = q.drop 1 ++ [r]) := by
  constructor
  · intro q hq rs
    induction rs generalizing q with
    | nil => simpa using hq
    | cons r rs ih =>
      simpa using ih (enqueue_pending_report q r) (enqueue_length_le q r hq)
  · intro q r hq
    simp [enqueue_pending_report, PENDING_REPORTS_MAX, hq]

/-- Witness for `queue_capacity_bound`: a singleton enqueue onto the empty
queue, and an enqueue onto a queue of exactly 500 entries. -/
theorem queue_capacity_bound_witness :
    ([sampleEntry].foldl enqueue_pending_report []).length ≤ 500 ∧
    enqueue_pending_report (List.replicate 500 sampleEntry) sampleEntry2 =
      (List.replicate 500 sampleEntry).drop 1 ++ [sampleEntry2] :=
  ⟨queue_capacity_bound.1 [] (by simp) [sampleEntry],
   queue_capacity_bound.2 (List.replicate 500 sampleEntry) sampleEntry2
     (by simp only [List.length_replicate])⟩

/-- C9: loading the persisted report queue yields the empty list when the
state file is missing, and yields the empty list (after logging) rather
than failing when the file exists but cannot be parsed — either as JSON or
as a pending-report list; a decodable document yields exactly its entries.
The loader is a total function: no fatal error is possible. -/
theorem load_startup_tolerant :
    load_pending_reports none = [] ∧
    load_pending_reports (some none) = [] ∧
    (∀ doc : JValue, decodePendingList doc = none →
      load_pending_reports (some (some doc)) = []) ∧
    (∀ (doc : JValue) (l : List PendingReport), decodePendingList doc = some l →
      load_pending_reports (some (some doc)) = l) := by
  refine ⟨rfl, rfl, ?_, ?_⟩
  · intro doc h
    simp [load_pending_reports, h]
  · intro doc l h
    simp [load_pending_reports, h]

/-- Witness for `load_startup_tolerant`: a corrupt document (a JSON string
where a list is expected) loads as the empty queue, and an empty list
document loads as the empty queue. -/
theorem load_startup_tolerant_witness :
    load_pending_reports (some (some (.str "corrupt"))) = [] ∧
    load_pending_reports (some (some (.arr []))) = [] :=
  ⟨load_startup_tolerant.2.2.1 (.str "corrupt") rfl,
   load_startup_tolerant.2.2.2 (.arr []) [] rfl⟩

/-- C10: on a check-and-insert, the guard is cleared entirely (not
incrementally evicted) exactly when its key count strictly exceeds 20000 —
when it is, only the freshly inserted key remains; when it is not, every
prior key is retained — and the guard size never exceeds 20001 keys after
any operation. -/
theorem dedup_clear_policy :
    (∀ (s : List String) (k : String), s.length > 20000 →
      shouldDispatch k s = (true, [k])) ∧
    (∀ (s : List String) (k : String), s.length ≤ 20000 →
      shouldDispatch k s = if k ∈ s then (false, s) else (true, k :: s)) ∧
    (∀ (s : List String) (k : String), ((shouldDispatch k s).2).length ≤ 20001) := by
  refine ⟨?_, ?_, ?_⟩
  · intro s k h
    simp [shouldDispatch, h]
  · intro s k h
    have h2 : ¬ s.length > 20000 := by omega
    simp [shouldDispatch, h2]
  · intro s k
    simp only [shouldDispatch]
    split
    · split <;> simp
    · rename_i h
      split <;> simp <;> omega

/-- Witness for `dedup_clear_policy`: a guard of 20001 distinct keys is
cleared down to the single new key; a small guard keeps its keys; the
post-operation size bound at the cleared instance. -/
theorem dedup_clear_policy_witness :
    shouldDispatch "x" (manyKeys 20001) = (true, ["x"]) ∧
    shouldDispatch "x" ["a"] = (true, ["x", "a"]) ∧
    ((shouldDispatch "x" (manyKeys 20001)).2).length ≤ 20001 :=
  ⟨dedup_clear_policy.1 (manyKeys 20001) "x"
      (by simp only [manyKeys, List.length_map, List.length_range]; omega),
   by
    rw [dedup_clear_policy.2.1 ["a"] "x" (by simp)]
    simp,
   dedup_clear_policy.2.2 (manyKeys 20001) "x"⟩

theorem reinsert_stuck (q : List PendingReport)
    (h : ¬ q.length < PENDING_REPORTS_MAX) (sp : List PendingReport) :
    reinsert_pending q sp = q := by
  induction sp with
  | nil => rfl
  | cons a sp ih =>
    show List.foldl _ _ _ = _
    rw [List.foldl_cons, if_neg h]
    exact ih

theorem reinsert_eq_append_take :
    ∀ (sp q : List PendingReport), q.length ≤ PENDING_REPORTS_MAX →
      reinsert_pending q sp = q ++ sp.take (PENDING_REPORTS_MAX - q.length) := by
  intro sp
  induction sp with
  | nil => intro q h; simp [reinsert_pending]
  | cons a sp ih =>
    intro q h
    by_cases hq : q.length < PENDING_REPORTS_MAX
    · have step : reinsert_pending q (a :: sp) = reinsert_pending (q ++ [a]) sp := by
        show List.foldl _ _ _ = _
        rw [List.foldl_cons, if_pos hq]
        rfl
      rw [step, ih (q ++ [a]) (by simp; omega)]
      have hlen : (q ++ [a]).length = q.length + 1 := by simp
      rw [hlen]
      have hsub : PENDING_REPORTS_MAX - q.length = (PENDING_REPORTS_MAX - (q.length + 1)) + 1 := by
        simp only [PENDING_REPORTS_MAX] at *
        omega
      rw [hsub, List.take_succ_cons, List.append_assoc]
      rfl
    · rw [reinsert_stuck q hq]
      have h500 : PENDING_REPORTS_MAX - q.length = 0 := by omega
      rw [h500, List.take_zero, List.append_nil]

/-- C8 counterexample: with the queue already at its 500-entry capacity
(one oldest entry followed by 499 newer ones, as concurrent enqueues during
the flush could produce), re-inserting a surviving entry after a flush pass
does not evict the oldest entry to admit it — the queue is left completely
unchanged and the re-inserted entry is discarded — whereas the claimed
bounded-capacity rule (evict the single oldest, append the new) would
produce a different queue. -/
theorem reinsert_counterexample :
    reinsert_pending (entryA 0 :: List.replicate 499 (entryA 1)) [entryA 2] =
      entryA 0 :: List.replicate 499 (entryA 1) ∧
    entryA 0 :: List.replicate 499 (entryA 1) ≠
      (entryA 0 :: List.replicate 499 (entryA 1)).drop 1 ++ [entryA 2] := by
  constructor
  · exact reinsert_stuck _
      (by rw [List.length_cons, List.length_replicate]; decide) _
  · intro h
    have h1 := congrArg List.head? h
    rw [List.drop_one, List.tail_cons,
      show (499 : Nat) = 498 + 1 from rfl, List.replicate_succ, List.cons_append,
      List.head?_cons, List.head?_cons] at h1
    have h2 : entryA 0 = entryA 1 := Option.some.inj h1
    have h3 := congrArg PendingReport.attempts h2
    simp [entryA] at h3

/-- C8 (amended): re-insertion of undelivered entries after a flush pass
respects the 500-entry cap by appending only while the queue is below
capacity and discarding the remaining re-inserted entries (it does not
evict the oldest): the result is the concurrent queue followed by exactly
as many surviving entries as fit, so the queue — and the persisted state
file, which stores exactly the queue — never exceeds 500 entries after the
flush pass. -/
theorem reinsert_cap_bound :
    ∀ (q sp : List PendingReport), q.length ≤ 500 →
      reinsert_pending q sp = q ++ sp.take (500 - q.length) ∧
      (reinsert_pending q sp).length ≤ 500 ∧
      docEntryCount (save_pending_reports (reinsert_pending q sp)) ≤ 500 := by
  intro q sp h
  have hchar := reinsert_eq_append_take sp q h
  have hlen : (reinsert_pending q sp).length ≤ 500 := by
    rw [hchar]
    simp only [List.length_append, List.length_take, PENDING_REPORTS_MAX]
    omega
  refine ⟨hchar, hlen, ?_⟩
  simpa [docEntryCount, save_pending_reports, encodePendingList] using hlen

/-- Witness for `reinsert_cap_bound`: a 499-entry queue re-admitting two
surviving entries keeps only the first of them. -/
theorem reinsert_cap_bound_witness :
    reinsert_pending (List.replicate 499 sampleEntry) [sampleEntry2, sampleEntry2] =
      List.replicate 499 sampleEntry ++
        [sampleEntry2, sampleEntry2].take (500 - (List.replicate 499 sampleEntry).length) ∧
    (reinsert_pending (List.replicate 499 sampleEntry) [sampleEntry2, sampleEntry2]).length ≤ 500 ∧
    docEntryCount (save_pending_reports
      (reinsert_pending (List.replicate 499 sampleEntry) [sampleEntry2, sampleEntry2])) ≤ 500 :=
  reinsert_cap_bound (List.replicate 499 sampleEntry) [sampleEntry2, sampleEntry2]
    (by rw [List.length_replicate]; decide)

theorem flushAttemptsMade_nil (deliver : Nat → PendingReport → Bool) :
    ∀ n, flushAttemptsMade deliver [] n = 0 := by
  intro n
  induction n generalizing deliver with
  | zero => rfl
  | succ n ih => simpa [flushAttemptsMade, flush_process] using ih _

/-- C6 counterexample: an entry enqueued with `attemptCount = 1` (one
immediate delivery attempt already made) survives 19 failing flush passes
reaching `attemptCount = 20`, is attempted once more and dropped on the
20th failing pass, for a total of `1 + 20 = 21` delivery attempts — more
than the 20 the claim allows. -/
theorem flush_attempts_counterexample :
    flushIter (fun _ _ => false) [sampleEntry] 19 = [{ sampleEntry with attempts := 20 }] ∧
    flushIter (fun _ _ => false) [sampleEntry] 20 = [] ∧
    1 + flushAttemptsMade (fun _ _ => false) [sampleEntry] 20 = 21 := by
  refine ⟨rfl, rfl, rfl⟩

/-- C6 (amended): in each flush pass every drained entry whose delivery
succeeds is dropped; every entry whose delivery fails has its attempt count
incremented by one and is then dropped if the incremented count exceeds 20
(in particular an entry reaching count 21 is dropped, never re-queued) and
re-queued otherwise; consequently an entry is delivered at most 21 times in
total (1 immediate attempt plus at most 20 flush attempts): counting the
attempts already made against an entry, its lifetime total never passes
21. -/
theorem flush_retry_policy :
    (∀ (deliver : PendingReport → Bool) (items : List PendingReport),
      flush_process deliver items = items.filterMap fun it =>
        if deliver it then none
        else if it.attempts + 1 > 20 then none
        else some { it with attempts := it.attempts + 1 }) ∧
    (∀ (deliver : Nat → PendingReport → Bool) (e : PendingReport),
      1 ≤ e.attempts → e.attempts ≤ 20 →
      ∀ n, e.attempts + flushAttemptsMade deliver [e] n ≤ 21) := by
  constructor
  · intro deliver items
    induction items with
    | nil => rfl
    | cons a items ih =>
      by_cases hd : deliver a
      · simp [flush_process, hd, List.filterMap_cons, ih]
      · by_cases ha : a.attempts + 1 > 20
        · simp [flush_process, hd, PENDING_REPORT_MAX_ATTEMPTS, ha, List.filterMap_cons, ih]
        · simp [flush_process, hd, PENDING_REPORT_MAX_ATTEMPTS, ha, List.filterMap_cons, ih]
  · intro deliver e h1 h20 n
    induction n generalizing deliver e with
    | zero => simp only [flushAttemptsMade]; omega
    | succ n ih =>
      have hstep : flushAttemptsMade deliver [e] (n + 1) =
          1 + flushAttemptsMade (fun i => deliver (i + 1))
            (flush_process (deliver 0) [e]) n := by
        simp [flushAttemptsMade]
      rw [hstep]
      by_cases hd : deliver 0 e
      · rw [show flush_process (deliver 0) [e] = [] by simp [flush_process, hd],
          flushAttemptsMade_nil]
        omega
      · by_cases ha : e.attempts + 1 > 20
        · rw [show flush_process (deliver 0) [e] = [] by
            simp [flush_process, hd, PENDING_REPORT_MAX_ATTEMPTS, ha],
            flushAttemptsMade_nil]
          omega
        · have hproc : flush_process (deliver 0) [e] = [{ e with attempts := e.attempts + 1 }] := by
            simp [flush_process, hd, PENDING_REPORT_MAX_ATTEMPTS]
            omega
          rw [hproc]
          have := ih (fun i => deliver (i + 1)) { e with attempts := e.attempts + 1 }
            (by simp) (by simp; omega)
          simp only at this ⊢
          omega

/-- Witness for `flush_retry_policy`: the freshly enqueued sample entry
(attempt count 1) never passes 21 total attempts over 25 always-failing
flush passes, and a delivered entry is dropped. -/
theorem flush_retry_policy_witness :
    1 + flushAttemptsMade (fun _ _ => false) [sampleEntry] 25 ≤ 21 ∧
    flush_process (fun _ => true) [sampleEntry] = [] :=
  ⟨by
    have h := flush_retry_policy.2 (fun _ _ => false) sampleEntry
      (by simp [sampleEntry]) (by simp [sampleEntry]) 25
    simpa [sampleEntry] using h,
   by rw [flush_retry_policy.1]; rfl⟩

theorem optBind_some (a : α) (f : α → Option β) : (some a).bind f = f a := rfl

theorem decodeOptStr_encodeOptStr (o : Option String) :
    decodeOptStr (encodeOptStr o) = some o := by
  cases o <;> rfl

theorem decodeU64_ofNat (du : Nat) (h : du < 2 ^ 64) :
    decodeU64 (JValue.num (Int.ofNat du)) = some du := by
  simp only [decodeU64]
  rw [if_pos ⟨Int.ofNat_nonneg du, Int.ofNat_lt.mpr h⟩]
  simp

theorem decodeU32_ofNat (a : Nat) (h : a < 2 ^ 32) :
    decodeU32 (JValue.num (Int.ofNat a)) = some a := by
  simp only [decodeU32]
  rw [if_pos ⟨Int.ofNat_nonneg a, Int.ofNat_lt.mpr h⟩]
  simp

theorem lkStatus (st : String) (er : Option String) (du : Nat)
    (si stt nra : Option String) (out : JValue) :
    List.lookup "status" (reportFields st er du si stt nra out) = some (JValue.str st) := rfl

theorem lkError (st : String) (er : Option String) (du : Nat)
    (si stt nra : Option String) (out : JValue) :
    List.lookup "error" (reportFields st er du si stt nra out) = some (encodeOptStr er) := rfl

theorem lkDuration (st : String) (er : Option String) (du : Nat)
    (si stt nra : Option String) (out : JValue) :
    List.lookup "durationMs" (reportFields st er du si stt nra out) =
      some (JValue.num (Int.ofNat du)) := rfl

theorem lkSnapId (st : String) (er : Option String) (du : Nat)
    (si stt nra : Option String) (out : JValue) :
    List.lookup "snapshotId" (reportFields st er du si stt nra out) =
      some (encodeOptStr si) := rfl

theorem lkSnapTime (st : String) (er : Option String) (du : Nat)
    (si stt nra : Option String) (out : JValue) :
    List.lookup "snapshotTime" (reportFields st er du si stt nra out) =
      some (encodeOptStr stt) := rfl

theorem lkNextRun (st : String) (er : Option String) (du : Nat)
    (si stt nra : Option String) (out : JValue) :
    List.lookup "nextRunAt" (reportFields st er du si stt nra out) =
      some (encodeOptStr nra) := rfl

theorem lkOutput (st : String) (er : Option String) (du : Nat)
    (si stt nra : Option String) (out : JValue) :
    List.lookup "output" (reportFields st er du si stt nra out) = some out := rfl

theorem decodeReport_unfold (st : String) (er : Option String) (du : Nat)
    (si stt nra : Option String) (out : JValue) :
    decodeReport (JValue.obj (reportFields st er du si stt nra out)) =
      ((List.lookup "status" (reportFields st er du si stt nra out)).bind decodeStr).bind
        fun status =>
      ((List.lookup "error" (reportFields st er du si stt nra out)).bind decodeOptStr).bind
        fun error =>
      ((List.lookup "durationMs" (reportFields st er du si stt nra out)).bind decodeU64).bind
        fun durationMs =>
      ((List.lookup "snapshotId" (reportFields st er du si stt nra out)).bind decodeOptStr).bind
        fun snapshotId =>
      ((List.lookup "snapshotTime" (reportFields st er du si stt nra out)).bind decodeOptStr).bind
        fun snapshotTime =>
      ((List.lookup "nextRunAt" (reportFields st er du si stt nra out)).bind decodeOptStr).bind
        fun nextRunAt =>
      (List.lookup "output" (reportFields st er du si stt nra out)).bind
        fun output =>
      some ⟨status, error, durationMs, snapshotId, snapshotTime, nextRunAt, output⟩ := rfl

theorem decodeReport_encodeReport (r : BackupPlanReportRequest)
    (h : r.duration_ms < 2 ^ 64) :
    decodeReport (encodeReport r) = some r := by
  obtain ⟨st, er, du, si, stt, nra, out⟩ := r
  simp only at h
  show decodeReport (JValue.obj (reportFields st er du si stt nra out)) = _
  rw [decodeReport_unfold, lkStatus, lkError, lkDuration, lkSnapId, lkSnapTime,
    lkNextRun, lkOutput,
    optBind_some, show decodeStr (JValue.str st) = some st from rfl, optBind_some,
    optBind_some, decodeOptStr_encodeOptStr, optBind_some,
    optBind_some, decodeU64_ofNat du h, optBind_some,
    optBind_some, decodeOptStr_encodeOptStr, optBind_some,
    optBind_some, decodeOptStr_encodeOptStr, optBind_some,
    optBind_some, decodeOptStr_encodeOptStr, optBind_some,
    optBind_some]

theorem lkUrl (url : String) (r : BackupPlanReportRequest) (a : Nat) :
    List.lookup "url" (pendingFields url r a) = some (JValue.str url) := rfl

theorem lkPayload (url : String) (r : BackupPlanReportRequest) (a : Nat) :
    List.lookup "payload" (pendingFields url r a) = some (encodeReport r) := rfl

theorem lkAttempts (url : String) (r : BackupPlanReportRequest) (a : Nat) :
    List.lookup "attempts" (pendingFields url r a) = some (JValue.num (Int.ofNat a)) := rfl

theorem decodePending_unfold (url : String) (r : BackupPlanReportRequest) (a : Nat) :
    decodePending (JValue.obj (pendingFields url r a)) =
      ((List.lookup "url" (pendingFields url r a)).bind decodeStr).bind fun url2 =>
      ((List.lookup "payload" (pendingFields url r a)).bind decodeReport).bind fun p =>
      ((List.lookup "attempts" (pendingFields url r a)).bind decodeU32).bind fun a2 =>
      some ⟨url2, p, a2⟩ := rfl

theorem decodePending_encodePending (e : PendingReport) (h : EntryInBounds e) :
    decodePending (encodePending e) = some e := by
  obtain ⟨url, r, a⟩ := e
  obtain ⟨hd, ha⟩ := h
  simp only at hd ha
  show decodePending (JValue.obj (pendingFields url r a)) = _
  rw [decodePending_unfold, lkUrl, lkPayload, lkAttempts,
    optBind_some, show decodeStr (JValue.str url) = some url from rfl, optBind_some,
    optBind_some, decodeReport_encodeReport r hd, optBind_some,
    optBind_some, decodeU32_ofNat a ha, optBind_some]

theorem decodeList_encodeList :
    ∀ l : List PendingReport, (∀ e ∈ l, EntryInBounds e) →
      decodePendingList (encodePendingList l) = some l := by
  intro l
  induction l with
  | nil => intro _; rfl
  | cons e l ih =>
    intro h
    have he : EntryInBounds e := h e (List.mem_cons_self e l)
    have ihh := ih (fun x hx => h x (List.mem_cons_of_mem e hx))
    simp only [encodePendingList, decodePendingList, List.map_cons, List.mapM_cons] at ihh ⊢
    rw [decodePending_encodePending e he, ihh]
    rfl

/-- C7: persisting any list of pending report entries to the state file and
loading it back yields an identical list — same length, same order, and
each entry's url, payload and attempt count unchanged — provided each
entry's integer fields are within the `u64`/`u32` bounds the Rust types
impose (which every entry the worker builds satisfies). -/
theorem persist_load_roundtrip :
    ∀ reports : List PendingReport, (∀ e ∈ reports, EntryInBounds e) →
      load_pending_reports (some (some (save_pending_reports reports))) = reports := by
  intro reports h
  simp [load_pending_reports, save_pending_reports, decodeList_encodeList reports h]

/-- Witness for `persist_load_roundtrip`: a two-entry queue — one minimal
entry and one exercising every optional field — survives the round trip. -/
theorem persist_load_roundtrip_witness :
    load_pending_reports (some (some (save_pending_reports [sampleEntry, sampleEntry2]))) =
      [sampleEntry, sampleEntry2] :=
  persist_load_roundtrip [sampleEntry, sampleEntry2] (by
    intro e he
    simp only [List.mem_cons, List.not_mem_nil, or_false] at he
    rcases he with rfl | rfl
    · exact ⟨by decide, by decide⟩
    · exact ⟨by decide, by decide⟩)

/-- C2: for every validly parsed 5-field cron spec and every instant whose
minute, hour and month are members of their sets, `match` combines the day
fields as follows: both literally `*` — match unconditionally; exactly one
`*` — the non-wildcard field's membership decides; neither `*` — match when
EITHER the day-of-month set contains the day OR the day-of-week set
contains the weekday (logical OR).  For the example spec `0 0 1 * 1`
(parsing to `cronP1`), midnight on the 1st of any month matches, and
midnight on any Monday matches. -/
theorem cron_day_or_rule :
    (∀ (cron : String) (p : ParsedCron), parse_cron_expression cron = some p →
      ∀ t : LocalInstant, t.minute ∈ p.minute → t.hour ∈ p.hour → t.month ∈ p.month →
        (p.is_day_of_month_wildcard = true → p.is_day_of_week_wildcard = true →
          cron_matches_at p t = true) ∧
        (p.is_day_of_month_wildcard = true → p.is_day_of_week_wildcard = false →
          cron_matches_at p t = decide (t.weekday ∈ p.day_of_week)) ∧
        (p.is_day_of_month_wildcard = false → p.is_day_of_week_wildcard = true →
          cron_matches_at p t = decide (t.day ∈ p.day_of_month)) ∧
        (p.is_day_of_month_wildcard = false → p.is_day_of_week_wildcard = false →
          cron_matches_at p t =
            (decide (t.day ∈ p.day_of_month) || decide (t.weekday ∈ p.day_of_week)))) ∧
    (∀ t : LocalInstant, t.minute = 0 → t.hour = 0 → 1 ≤ t.month → t.month ≤ 12 →
      parse_cron_expression "0 0 1 * 1" = some cronP1 ∧
      (t.day = 1 → cron_matches_at cronP1 t = true) ∧
      (t.weekday = 1 → cron_matches_at cronP1 t = true)) := by
  constructor
  · intro cron p _ t hm hh hmo
    have hcond : ¬ (t.minute ∉ p.minute ∨ t.hour ∉ p.hour ∨ t.month ∉ p.month) := by
      push_neg
      exact ⟨hm, hh, hmo⟩
    refine ⟨?_, ?_, ?_, ?_⟩ <;> intro hdom hdow <;>
      simp [cron_matches_at, if_neg hcond, hdom, hdow]
  · intro t h0 hh hlo hhi
    obtain ⟨mi, hr, dy, mo, wd⟩ := t
    simp only at h0 hh hlo hhi
    subst h0
    subst hh
    refine ⟨by decide, ?_, ?_⟩
    · intro hd
      simp only at hd
      subst hd
      interval_cases mo <;> simp [cron_matches_at, cronP1]
    · intro hw
      simp only at hw
      subst hw
      interval_cases mo <;> simp [cron_matches_at, cronP1]

/-- Witness for `cron_day_or_rule`: the spec `0 0 1 * 1` at concrete
instants — midnight May 1st on a Wednesday, and midnight May 17th on a
Monday — and the OR-combination shape at the first instant. -/
theorem cron_day_or_rule_witness :
    parse_cron_expression "0 0 1 * 1" = some cronP1 ∧
    cron_matches_at cronP1 ⟨0, 0, 1, 5, 3⟩ = true ∧
    cron_matches_at cronP1 ⟨0, 0, 17, 5, 1⟩ = true ∧
    cron_matches_at cronP1 ⟨0, 0, 1, 5, 3⟩ =
      (decide ((1 : Nat) ∈ cronP1.day_of_month) ||
        decide ((3 : Nat) ∈ cronP1.day_of_week)) :=
  ⟨(cron_day_or_rule.2 ⟨0, 0, 1, 5, 3⟩ rfl rfl (by decide) (by decide)).1,
   (cron_day_or_rule.2 ⟨0, 0, 1, 5, 3⟩ rfl rfl (by decide) (by decide)).2.1 rfl,
   (cron_day_or_rule.2 ⟨0, 0, 17, 5, 1⟩ rfl rfl (by decide) (by decide)).2.2 rfl,
   (cron_day_or_rule.1 "0 0 1 * 1" cronP1 (by decide) ⟨0, 0, 1, 5, 3⟩
      (by decide) (by decide) (by decide)).2.2.2 rfl rfl⟩

theorem nextRunScan_eq_find (p : ParsedCron) :
    ∀ (n : Nat) (c : LocalDateTime),
      nextRunScan p n c =
        ((List.range n).map (fun i => addOneMinute^[i] c)).find?
          (fun c2 => cron_matches_at p (toInstant c2)) := by
  intro n
  induction n with
  | zero => intro c; simp [nextRunScan]
  | succ n ih =>
    intro c
    rw [List.range_succ_eq_map, List.map_cons, List.map_map]
    have hcomp : ((fun i => addOneMinute^[i] c) ∘ Nat.succ) =
        fun i => addOneMinute^[i] (addOneMinute c) := by
      funext i
      simp [Function.comp, Function.iterate_succ_apply]
    rw [hcomp]
    by_cases hm : cron_matches_at p (toInstant c)
    · simp only [nextRunScan, hm, if_pos]
      rw [List.find?_cons_of_pos]
      · simp
      · simpa using hm
    · simp only [nextRunScan, hm, Bool.false_eq_true, if_neg, ite_false]
      rw [List.find?_cons_of_neg]
      · exact ih (addOneMinute c)
      · simpa using hm

/-- C3: `compute_next_run_at` scans minute-by-minute starting at
`now + 1` minute with seconds zeroed, over exactly the `60 * 24 * 366`
candidate minutes, and returns the first candidate satisfying the match
(none when no candidate in that bound matches, and none when the spec does
not parse) — it equals `find?` over the candidate list.  For the spec
`30 2 * * *` evaluated from 2024-01-01T00:00:00 it returns
2024-01-01T02:30:00. -/
theorem next_run_first_match :
    (∀ (cron : String) (now : LocalDateTime),
      compute_next_run_at cron now =
        (parse_cron_expression cron).bind fun p =>
          (minuteCandidates now).find? fun c => cron_matches_at p (toInstant c)) ∧
    compute_next_run_at "30 2 * * *" ⟨2024, 1, 1, 0, 0, 0⟩ =
      some ⟨2024, 1, 1, 2, 30, 0⟩ := by
  constructor
  · intro cron now
    unfold compute_next_run_at
    cases parse_cron_expression cron with
    | none => rfl
    | some p =>
      show nextRunScan p (60 * 24 * 366) (withSecondZero (addOneMinute now)) = _
      rw [nextRunScan_eq_find p, optBind_some]
      unfold minuteCandidates
      rfl
  · decide

theorem dropWhile_eq_self_of {p : Char → Bool} :
    ∀ l : List Char, (∀ c ∈ l, p c = false) → l.dropWhile p = l := by
  intro l h
  cases l with
  | nil => rfl
  | cons a l =>
    have := h a (List.mem_cons_self a l)
    simp [List.dropWhile_cons, this]

theorem trimLC_eq_self (l : List Char) (h : ∀ c ∈ l, c.isWhitespace = false) :
    trimLC l = l := by
  unfold trimLC
  rw [dropWhile_eq_self_of l h]
  rw [dropWhile_eq_self_of l.reverse (fun c hc => h c (List.mem_reverse.mp hc))]
  exact List.reverse_reverse l

theorem chunk_isSome_eq (minB maxB : Nat) (hmm : minB ≤ maxB) (chunk : List Char)
    (hws : ∀ c ∈ chunk, c.isWhitespace = false) :
    (parseCronChunk minB maxB chunk).isSome = specChunkOkWith parseU32 minB maxB chunk := by
  unfold parseCronChunk specChunkOkWith
  rw [trimLC_eq_self chunk hws]
  by_cases hempty : chunk = []
  · subst hempty
    rfl
  · rw [if_neg (by simpa using hempty)]
    have hbase : ∀ (base : List Char) (step : Nat),
        (let rangeRes : Option (Nat × Nat) :=
            if base = ['*'] then some (minB, maxB)
            else
              match splitOnce '-' base with
              | some p =>
                match parseU32 p.1, parseU32 p.2 with
                | some lo, some hi => some (lo, hi)
                | _, _ => none
              | none =>
                match parseU32 base with
                | some v => some (v, v)
                | none => none;
          (match rangeRes with
            | none => (none : Option (List Nat))
            | some r =>
              if r.1 < minB ∨ r.2 > maxB ∨ r.1 > r.2 then none
              else some (rangeValues r.1 r.2 step)).isSome) =
        (decide (base = ['*']) ||
          match splitOnce '-' base with
          | some p =>
            match parseU32 p.1, parseU32 p.2 with
            | some lo, some hi => decide (minB ≤ lo) && decide (lo ≤ hi) && decide (hi ≤ maxB)
            | _, _ => false
          | none =>
            match parseU32 base with
            | some v => decide (minB ≤ v) && decide (v ≤ maxB)
            | none => false) := by
      intro base step
      by_cases hstar : base = ['*']
      · simp only [hstar, if_pos, decide_eq_true_eq]
        have : ¬(minB < minB ∨ maxB > maxB ∨ minB > maxB) := by omega
        simp [this, hmm]
      · simp only [if_neg hstar, decide_eq_false (show ¬(base = ['*']) from hstar),
          Bool.false_or]
        cases hdash : splitOnce '-' base with
        | some p =>
          cases hlo : parseU32 p.1 with
          | none => simp [hlo]
          | some lo =>
            cases hhi : parseU32 p.2 with
            | none => simp [hlo, hhi]
            | some hi =>
              simp only [hlo, hhi]
              by_cases hcond : lo < minB ∨ hi > maxB ∨ lo > hi
              · rw [if_pos (by omega : lo < minB ∨ maxB < hi ∨ hi < lo)]
                simp only [Option.isSome_none]
                have h1 : ¬ minB ≤ lo ∨ ¬ lo ≤ hi ∨ ¬ hi ≤ maxB := by omega
                rcases h1 with h1 | h1 | h1 <;> simp [decide_eq_false h1]
              · rw [if_neg (by omega : ¬ (lo < minB ∨ maxB < hi ∨ hi < lo))]
                simp only [Option.isSome_some]
                have h1 : minB ≤ lo := by omega
                have h2 : lo ≤ hi := by omega
                have h3 : hi ≤ maxB := by omega
                simp [h1, h2, h3]
        | none =>
          cases hv : parseU32 base with
          | none => simp [hv]
          | some v =>
            simp only [hv]
            by_cases hcond : v < minB ∨ v > maxB
            · rw [if_pos (by omega : v < minB ∨ maxB < v ∨ v < v)]
              simp only [Option.isSome_none]
              have h1 : ¬ minB ≤ v ∨ ¬ v ≤ maxB := by omega
              rcases h1 with h1 | h1 <;> simp [decide_eq_false h1]
            · rw [if_neg (by omega : ¬ (v < minB ∨ maxB < v ∨ v < v))]
              simp only [Option.isSome_some]
              have h1 : minB ≤ v := by omega
              have h2 : v ≤ maxB := by omega
              simp [h1, h2]
    cases hsl : splitOnce '/' chunk with
    | some bs =>
      cases hstep : parseU32 bs.2 with
      | none => simp [hstep]
      | some st =>
        simp only [hstep]
        by_cases hz : st = 0
        · subst hz
          simp
        · rw [if_neg hz]
          have h1 : decide (1 ≤ st) = true := decide_eq_true (by omega)
          simp only [h1, Bool.true_and]
          exact hbase bs.1 st
    | none =>
      show (match some 1 with
        | none => (none : Option (List Nat))
        | some step => _).isSome = _
      simp only []
      rw [if_neg (by omega : ¬ (1 : Nat) = 0)]
      simp only [Bool.true_and]
      exact hbase chunk 1

theorem splitWSAux_no_ws :
    ∀ (l acc : List Char), (∀ c ∈ acc, c.isWhitespace = false) →
      ∀ t ∈ splitWSAux l acc, ∀ c ∈ t, c.isWhitespace = false := by
  intro l
  induction l with
  | nil =>
    intro acc hacc t ht c hc
    simp only [splitWSAux] at ht
    by_cases he : acc.isEmpty
    · simp [he] at ht
    · rw [if_neg he] at ht
      simp only [List.mem_singleton] at ht
      subst ht
      exact hacc c (List.mem_reverse.mp hc)
  | cons a l ih =>
    intro acc hacc t ht c hc
    simp only [splitWSAux] at ht
    by_cases hw : a.isWhitespace
    · rw [if_pos hw] at ht
      by_cases he : acc.isEmpty
      · rw [if_pos he] at ht
        exact ih [] (by simp) t ht c hc
      · rw [if_neg he] at ht
        rcases List.mem_cons.mp ht with rfl | ht2
        · exact hacc c (List.mem_reverse.mp hc)
        · exact ih [] (by simp) t ht2 c hc
    · rw [if_neg hw] at ht
      refine ih (a :: acc) ?_ t ht c hc
      intro c2 hc2
      rcases List.mem_cons.mp hc2 with rfl | hc3
      · simpa using hw
      · exact hacc c2 hc3

theorem splitWhitespace_no_ws (s : String) :
    ∀ t ∈ splitWhitespace s, ∀ c ∈ t, c.isWhitespace = false :=
  splitWSAux_no_ws s.data [] (by simp)

theorem splitSepAux_chars (sep : Char) :
    ∀ (l acc : List Char), ∀ p ∈ splitSepAux sep l acc, ∀ c ∈ p, c ∈ l ∨ c ∈ acc := by
  intro l
  induction l with
  | nil =>
    intro acc p hp c hc
    simp only [splitSepAux, List.mem_singleton] at hp
    subst hp
    exact Or.inr (List.mem_reverse.mp hc)
  | cons a l ih =>
    intro acc p hp c hc
    simp only [splitSepAux] at hp
    by_cases ha : a = sep
    · rw [if_pos ha] at hp
      rcases List.mem_cons.mp hp with rfl | hp2
      · exact Or.inr (List.mem_reverse.mp hc)
      · rcases ih [] p hp2 c hc with h | h
        · exact Or.inl (List.mem_cons_of_mem a h)
        · simp at h
    · rw [if_neg ha] at hp
      rcases ih (a :: acc) p hp c hc with h | h
      · exact Or.inl (List.mem_cons_of_mem a h)
      · rcases List.mem_cons.mp h with rfl | h2
        · exact Or.inl (List.mem_cons_self _ _)
        · exact Or.inr h2

theorem splitSep_chars (sep : Char) (l : List Char) :
    ∀ p ∈ splitSep sep l, ∀ c ∈ p, c ∈ l := by
  intro p hp c hc
  rcases splitSepAux_chars sep l [] p hp c hc with h | h
  · exact h
  · simp at h

theorem all_congr_on {α : Type} (p q : α → Bool) :
    ∀ l : List α, (∀ x ∈ l, p x = q x) → l.all p = l.all q := by
  intro l h
  induction l with
  | nil => rfl
  | cons a l ih =>
    simp only [List.all_cons]
    rw [h a (List.mem_cons_self a l), ih (fun x hx => h x (List.mem_cons_of_mem a hx))]

theorem parseChunks_isSome (minB maxB : Nat) :
    ∀ cs : List (List Char),
      (parseChunks minB maxB cs).isSome =
        cs.all (fun c => (parseCronChunk minB maxB c).isSome) := by
  intro cs
  induction cs with
  | nil => rfl
  | cons c cs ih =>
    simp only [parseChunks, List.all_cons]
    cases hc : parseCronChunk minB maxB c with
    | none => simp [hc]
    | some vs =>
      cases hrest : parseChunks minB maxB cs with
      | none => simp [hrest, ← ih]
      | some rest => simp [hrest, ← ih]

theorem parse_cron_field_isSome_eq (minB maxB : Nat) (hmm : minB ≤ maxB)
    (raw : List Char) (hws : ∀ c ∈ raw, c.isWhitespace = false) :
    (parse_cron_field raw minB maxB).isSome = specFieldOkWith parseU32 minB maxB raw := by
  unfold parse_cron_field specFieldOkWith
  rw [parseChunks_isSome]
  refine all_congr_on _ _ _ ?_
  intro chunk hchunk
  exact chunk_isSome_eq minB maxB hmm chunk
    (fun c hc => hws c (splitSep_chars ',' raw chunk hchunk c hc))

theorem parse_isSome_eq_specValid (cron : String) :
    (parse_cron_expression cron).isSome = specCronValid cron := by
  unfold parse_cron_expression specCronValid specCronValidWith
  cases hsp : splitWhitespace cron with
  | nil => rfl
  | cons f1 r1 =>
    cases r1 with
    | nil => rfl
    | cons f2 r2 =>
      cases r2 with
      | nil => rfl
      | cons f3 r3 =>
        cases r3 with
        | nil => rfl
        | cons f4 r4 =>
          cases r4 with
          | nil => rfl
          | cons f5 r5 =>
            cases r5 with
            | cons f6 r6 => rfl
            | nil =>
              have hws := splitWhitespace_no_ws cron
              rw [hsp] at hws
              have e1 := parse_cron_field_isSome_eq 0 59 (by omega) f1
                (hws f1 (by simp))
              have e2 := parse_cron_field_isSome_eq 0 23 (by omega) f2
                (hws f2 (by simp))
              have e3 := parse_cron_field_isSome_eq 1 31 (by omega) f3
                (hws f3 (by simp))
              have e4 := parse_cron_field_isSome_eq 1 12 (by omega) f4
                (hws f4 (by simp))
              have e5 := parse_cron_field_isSome_eq 0 6 (by omega) f5
                (hws f5 (by simp))
              cases h1 : parse_cron_field f1 0 59 with
              | none => simp [h1, ← e1]
              | some p1 =>
                cases h2 : parse_cron_field f2 0 23 with
                | none => simp [h1, h2, ← e1, ← e2]
                | some p2 =>
                  cases h3 : parse_cron_field f3 1 31 with
                  | none => simp [h1, h2, h3, ← e1, ← e2, ← e3]
                  | some p3 =>
                    cases h4 : parse_cron_field f4 1 12 with
                    | none => simp [h1, h2, h3, h4, ← e1, ← e2, ← e3, ← e4]
                    | some p4 =>
                      cases h5 : parse_cron_field f5 0 6 with
                      | none => simp [h1, h2, h3, h4, h5, ← e1, ← e2, ← e3, ← e4, ← e5]
                      | some p5 => simp [h1, h2, h3, h4, h5, ← e1, ← e2, ← e3, ← e4, ← e5]

theorem mem_rangeValuesAux (hi step : Nat) :
    ∀ (fuel lo v : Nat), v ∈ rangeValuesAux hi step fuel lo → lo ≤ v ∧ v ≤ hi := by
  intro fuel
  induction fuel with
  | zero => intro lo v hv; simp [rangeValuesAux] at hv
  | succ f ih =>
    intro lo v hv
    simp only [rangeValuesAux] at hv
    by_cases hle : lo ≤ hi
    · rw [if_pos hle] at hv
      rcases List.mem_cons.mp hv with rfl | hv2
      · exact ⟨Nat.le_refl _, hle⟩
      · have h2 := ih (lo + step) v hv2
        exact ⟨by omega, h2.2⟩
    · rw [if_neg hle] at hv
      simp at hv

theorem mem_rangeValues (lo hi step v : Nat) (hv : v ∈ rangeValues lo hi step) :
    lo ≤ v ∧ v ≤ hi :=
  mem_rangeValuesAux hi step (hi + 1 - lo) lo v hv

theorem rangeValues_ne_nil (lo hi step : Nat) (hle : lo ≤ hi) :
    rangeValues lo hi step ≠ [] := by
  unfold rangeValues
  obtain ⟨k, hk⟩ : ∃ k, hi + 1 - lo = k + 1 := ⟨hi - lo, by omega⟩
  rw [hk]
  simp [rangeValuesAux, hle]

theorem parseCronChunk_some (minB maxB : Nat) (chunkRaw : List Char) (vs : List Nat)
    (h : parseCronChunk minB maxB chunkRaw = some vs) :
    vs ≠ [] ∧ ∀ v ∈ vs, minB ≤ v ∧ v ≤ maxB := by
  unfold parseCronChunk at h
  by_cases he : (trimLC chunkRaw).isEmpty
  · rw [if_pos he] at h
    cases h
  · rw [if_neg he] at h
    have hcore : ∀ (lo2 hi2 st2 : Nat),
        (if lo2 < minB ∨ hi2 > maxB ∨ lo2 > hi2 then (none : Option (List Nat))
          else some (rangeValues lo2 hi2 st2)) = some vs →
        vs ≠ [] ∧ ∀ v ∈ vs, minB ≤ v ∧ v ≤ maxB := by
      intro lo2 hi2 st2 hcase
      by_cases hcond : lo2 < minB ∨ hi2 > maxB ∨ lo2 > hi2
      · rw [if_pos hcond] at hcase
        cases hcase
      · rw [if_neg hcond] at hcase
        have hvs : vs = rangeValues lo2 hi2 st2 := (Option.some.inj hcase).symm
        subst hvs
        refine ⟨rangeValues_ne_nil lo2 hi2 st2 (by omega), ?_⟩
        intro v hv
        have := mem_rangeValues lo2 hi2 st2 v hv
        omega
    cases hsl : splitOnce '/' (trimLC chunkRaw) with
    | some bs =>
      simp only [hsl] at h
      cases hstep : parseU32 bs.2 with
      | none => simp [hstep] at h
      | some st =>
        simp only [hstep] at h
        by_cases hz : st = 0
        · rw [if_pos hz] at h
          cases h
        · rw [if_neg hz] at h
          by_cases hstar : bs.1 = ['*']
          · rw [if_pos hstar] at h
            exact hcore minB maxB st h
          · rw [if_neg hstar] at h
            cases hdash : splitOnce '-' bs.1 with
            | some pq =>
              simp only [hdash] at h
              cases hlo : parseU32 pq.1 with
              | none => simp [hlo] at h
              | some lo =>
                cases hhi : parseU32 pq.2 with
                | none => simp [hlo, hhi] at h
                | some hi =>
                  simp only [hlo, hhi] at h
                  exact hcore lo hi st h
            | none =>
              simp only [hdash] at h
              cases hv : parseU32 bs.1 with
              | none => simp [hv] at h
              | some v =>
                simp only [hv] at h
                exact hcore v v st h
    | none =>
      simp only [hsl] at h
      rw [if_neg (by omega : ¬ (1 : Nat) = 0)] at h
      by_cases hstar : trimLC chunkRaw = ['*']
      · rw [if_pos hstar] at h
        exact hcore minB maxB 1 h
      · rw [if_neg hstar] at h
        cases hdash : splitOnce '-' (trimLC chunkRaw) with
        | some pq =>
          simp only [hdash] at h
          cases hlo : parseU32 pq.1 with
          | none => simp [hlo] at h
          | some lo =>
            cases hhi : parseU32 pq.2 with
            | none => simp [hlo, hhi] at h
            | some hi =>
              simp only [hlo, hhi] at h
              exact hcore lo hi 1 h
        | none =>
          simp only [hdash] at h
          cases hv : parseU32 (trimLC chunkRaw) with
          | none => simp [hv] at h
          | some v =>
            simp only [hv] at h
            exact hcore v v 1 h

theorem splitSepAux_ne_nil (sep : Char) :
    ∀ (l acc : List Char), splitSepAux sep l acc ≠ [] := by
  intro l
  induction l with
  | nil => intro acc; simp [splitSepAux]
  | cons a l ih =>
    intro acc
    simp only [splitSepAux]
    by_cases ha : a = sep
    · rw [if_pos ha]
      simp
    · rw [if_neg ha]
      exact ih (a :: acc)

theorem parseChunks_some (minB maxB : Nat) :
    ∀ (cs : List (List Char)) (vs : List Nat), parseChunks minB maxB cs = some vs →
      (∀ v ∈ vs, minB ≤ v ∧ v ≤ maxB) ∧ (cs ≠ [] → vs ≠ []) := by
  intro cs
  induction cs with
  | nil =>
    intro vs h
    simp only [parseChunks] at h
    have : vs = [] := (Option.some.inj h).symm
    subst this
    exact ⟨by simp, fun hc => absurd rfl hc⟩
  | cons c cs ih =>
    intro vs h
    simp only [parseChunks] at h
    cases hc : parseCronChunk minB maxB c with
    | none => simp [hc] at h
    | some vsc =>
      cases hrest : parseChunks minB maxB cs with
      | none => simp [hc, hrest] at h
      | some rest =>
        simp only [hc, hrest] at h
        have hvs : vs = vsc ++ rest := by
          cases h
          rfl
        subst hvs
        obtain ⟨hne, hbounds⟩ := parseCronChunk_some minB maxB c vsc hc
        obtain ⟨hbounds2, _⟩ := ih rest hrest
        constructor
        · intro v hv
          rcases List.mem_append.mp hv with hv | hv
          · exact hbounds v hv
          · exact hbounds2 v hv
        · intro _
          simp [hne]

theorem parse_cron_field_some (raw : List Char) (minB maxB : Nat) (vs : List Nat)
    (h : parse_cron_field raw minB maxB = some vs) :
    vs ≠ [] ∧ ∀ v ∈ vs, minB ≤ v ∧ v ≤ maxB := by
  unfold parse_cron_field at h
  obtain ⟨hbounds, hne⟩ := parseChunks_some minB maxB (splitSep ',' raw) vs h
  exact ⟨hne (splitSepAux_ne_nil ',' raw []), hbounds⟩

theorem parse_cron_expression_fields (cron : String) (p : ParsedCron)
    (h : parse_cron_expression cron = some p) :
    (p.minute ≠ [] ∧ ∀ v ∈ p.minute, v ≤ 59) ∧
    (p.hour ≠ [] ∧ ∀ v ∈ p.hour, v ≤ 23) ∧
    (p.day_of_month ≠ [] ∧ ∀ v ∈ p.day_of_month, 1 ≤ v ∧ v ≤ 31) ∧
    (p.month ≠ [] ∧ ∀ v ∈ p.month, 1 ≤ v ∧ v ≤ 12) ∧
    (p.day_of_week ≠ [] ∧ ∀ v ∈ p.day_of_week, v ≤ 6) := by
  unfold parse_cron_expression at h
  cases hsp : splitWhitespace cron with
  | nil => rw [hsp] at h; cases h
  | cons f1 r1 =>
    cases r1 with
    | nil => rw [hsp] at h; cases h
    | cons f2 r2 =>
      cases r2 with
      | nil => rw [hsp] at h; cases h
      | cons f3 r3 =>
        cases r3 with
        | nil => rw [hsp] at h; cases h
        | cons f4 r4 =>
          cases r4 with
          | nil => rw [hsp] at h; cases h
          | cons f5 r5 =>
            cases r5 with
            | cons f6 r6 => rw [hsp] at h; cases h
            | nil =>
              rw [hsp] at h
              simp only at h
              cases h1 : parse_cron_field f1 0 59 with
              | none => simp [h1] at h
              | some vs1 =>
                cases h2 : parse_cron_field f2 0 23 with
                | none => simp [h1, h2] at h
                | some vs2 =>
                  cases h3 : parse_cron_field f3 1 31 with
                  | none => simp [h1, h2, h3] at h
                  | some vs3 =>
                    cases h4 : parse_cron_field f4 1 12 with
                    | none => simp [h1, h2, h3, h4] at h
                    | some vs4 =>
                      cases h5 : parse_cron_field f5 0 6 with
                      | none => simp [h1, h2, h3, h4, h5] at h
                      | some vs5 =>
                        simp only [h1, h2, h3, h4, h5] at h
                        have hp : p = ⟨vs1, vs2, vs3, vs4, vs5,
                            decide (f3 = ['*']), decide (f5 = ['*'])⟩ := by
                          cases h
                          rfl
                        subst hp
                        obtain ⟨n1, b1⟩ := parse_cron_field_some f1 0 59 vs1 h1
                        obtain ⟨n2, b2⟩ := parse_cron_field_some f2 0 23 vs2 h2
                        obtain ⟨n3, b3⟩ := parse_cron_field_some f3 1 31 vs3 h3
                        obtain ⟨n4, b4⟩ := parse_cron_field_some f4 1 12 vs4 h4
                        obtain ⟨n5, b5⟩ := parse_cron_field_some f5 0 6 vs5 h5
                        refine ⟨⟨n1, fun v hv => (b1 v hv).2⟩,
                          ⟨n2, fun v hv => (b2 v hv).2⟩,
                          ⟨n3, fun v hv => b3 v hv⟩,
                          ⟨n4, fun v hv => b4 v hv⟩,
                          ⟨n5, fun v hv => (b5 v hv).2⟩⟩


/-- C4 counterexample: the claim's literal grammar ("step >= 1", integers
as bare digit strings) accepts `*/4294967296 * * * *`, but the parser
rejects it because 4294967296 overflows the 32-bit unsigned parse; and the
parser accepts `+5 * * * *` (Rust's `u32` parsing allows a leading `+`)
which the literal grammar rejects.  The acceptance of the claim's "iff"
fails in both directions. -/
theorem cron_parse_counterexample :
    specCronValidLit "*/4294967296 * * * *" = true ∧
    (parse_cron_expression "*/4294967296 * * * *").isSome = false ∧
    (parse_cron_expression "+5 * * * *").isSome = true ∧
    specCronValidLit "+5 * * * *" = false := by
  refine ⟨by decide, by decide, by decide, by decide⟩

/-- C4 (amended): cron parsing accepts a string iff it has exactly 5
whitespace-separated fields, each a comma-separated list of `*`, a single
integer, or a range `a-b`, optionally suffixed `/step` with `step ≥ 1` —
where an integer is a 32-bit unsigned decimal literal as Rust parses it
(one or more digits, optionally preceded by `+`, value below `2 ^ 32`) —
with all values inside the field's valid range (minute 0–59, hour 0–23,
day-of-month 1–31, month 1–12, day-of-week 0–6) and `a ≤ b`; any
out-of-range value, `a > b`, `step = 0` or unparsable integer rejects the
whole spec; every accepted field yields a non-empty set of in-range
integers; `parse "0 0 1 * 1"` succeeds while `parse "0 0 32 * *"` and
`parse "*/0 * * * *"` fail. -/
theorem cron_parse_spec :
    (∀ cron : String, (parse_cron_expression cron).isSome = specCronValid cron) ∧
    (∀ (cron : String) (p : ParsedCron), parse_cron_expression cron = some p →
      (p.minute ≠ [] ∧ ∀ v ∈ p.minute, v ≤ 59) ∧
      (p.hour ≠ [] ∧ ∀ v ∈ p.hour, v ≤ 23) ∧
      (p.day_of_month ≠ [] ∧ ∀ v ∈ p.day_of_month, 1 ≤ v ∧ v ≤ 31) ∧
      (p.month ≠ [] ∧ ∀ v ∈ p.month, 1 ≤ v ∧ v ≤ 12) ∧
      (p.day_of_week ≠ [] ∧ ∀ v ∈ p.day_of_week, v ≤ 6)) ∧
    (parse_cron_expression "0 0 1 * 1").isSome = true ∧
    (parse_cron_expression "0 0 32 * *").isSome = false ∧
    (parse_cron_expression "*/0 * * * *").isSome = false :=
  ⟨parse_isSome_eq_specValid, parse_cron_expression_fields,
   by decide, by decide, by decide⟩

/-- Witness for `cron_parse_spec`: the accepted spec `0 0 1 * 1` agrees
with the grammar, and its parsed minute set is the non-empty in-range
`[0]`. -/
theorem cron_parse_spec_witness :
    (parse_cron_expression "0 0 1 * 1").isSome = specCronValid "0 0 1 * 1" ∧
    (cronP1.minute ≠ [] ∧ ∀ v ∈ cronP1.minute, v ≤ 59) ∧
    (cronP1.month ≠ [] ∧ ∀ v ∈ cronP1.month, 1 ≤ v ∧ v ≤ 12) :=
  ⟨cron_parse_spec.1 "0 0 1 * 1",
   (cron_parse_spec.2.1 "0 0 1 * 1" cronP1 (by decide)).1,
   (cron_parse_spec.2.1 "0 0 1 * 1" cronP1 (by decide)).2.2.2.1⟩


theorem digitsVal_append_singleton (l : List Char) (c : Char) :
    digitsVal (l ++ [c]) = 10 * digitsVal l + (c.toNat - 48) := by
  simp [digitsVal, List.foldl_append]
  omega

theorem charToNat_ofNat_digit (d : Nat) (hd : d < 10) :
    (Char.ofNat (48 + d)).toNat = 48 + d := by
  interval_cases d <;> decide

theorem isDigit_ofNat_digit (d : Nat) (hd : d < 10) :
    (Char.ofNat (48 + d)).isDigit = true := by
  interval_cases d <;> decide

theorem digitsVal_natDigits : ∀ n : Nat, digitsVal (natDigits n) = n := by
  intro n
  induction n using Nat.strong_induction_on with
  | _ n ih =>
    by_cases h : n < 10
    · rw [natDigits, dif_pos h]
      simp [digitsVal, charToNat_ofNat_digit n h]
    · rw [natDigits, dif_neg h]
      rw [digitsVal_append_singleton, ih (n / 10) (Nat.div_lt_self (by omega) (by omega)),
        charToNat_ofNat_digit (n % 10) (Nat.mod_lt n (by omega))]
      omega

theorem natDigits_length_le : ∀ (w n : Nat), n < 10 ^ w → 0 < w →
    (natDigits n).length ≤ w := by
  intro w
  induction w with
  | zero => intro n h h0; omega
  | succ w ih =>
    intro n h _
    by_cases h10 : n < 10
    · rw [natDigits, dif_pos h10]
      simp
    · rw [natDigits, dif_neg h10]
      rcases Nat.eq_zero_or_pos w with rfl | hw
      · simp at h
        omega
      · have hdiv : n / 10 < 10 ^ w := by
          rw [Nat.div_lt_iff_lt_mul (by omega : 0 < 10)]
          calc n < 10 ^ (w + 1) := h
            _ = 10 ^ w * 10 := by rw [pow_succ]
        have := ih (n / 10) hdiv hw
        simp only [List.length_append, List.length_singleton]
        omega

theorem natDigits_all_digits : ∀ (n : Nat), ∀ c ∈ natDigits n, c.isDigit = true := by
  intro n
  induction n using Nat.strong_induction_on with
  | _ n ih =>
    intro c hc
    by_cases h : n < 10
    · rw [natDigits, dif_pos h] at hc
      simp only [List.mem_singleton] at hc
      subst hc
      exact isDigit_ofNat_digit n h
    · rw [natDigits, dif_neg h] at hc
      rcases List.mem_append.mp hc with hc2 | hc2
      · exact ih (n / 10) (Nat.div_lt_self (by omega) (by omega)) c hc2
      · simp only [List.mem_singleton] at hc2
        subst hc2
        exact isDigit_ofNat_digit (n % 10) (Nat.mod_lt n (by omega))

theorem natDigits_inj : Function.Injective natDigits := by
  intro a b h
  have := congrArg digitsVal h
  rwa [digitsVal_natDigits, digitsVal_natDigits] at this

theorem digitsVal_replicate_zero :
    ∀ (k : Nat) (l : List Char), digitsVal (List.replicate k '0' ++ l) = digitsVal l := by
  intro k
  induction k with
  | zero => intro l; rfl
  | succ k ih =>
    intro l
    rw [List.replicate_succ, List.cons_append]
    show digitsVal (List.replicate k '0' ++ l) = _
    exact ih l

theorem padDigits_length (w n : Nat) (h : n < 10 ^ w) (hw : 0 < w) :
    (padDigits w n).length = w := by
  unfold padDigits
  have := natDigits_length_le w n h hw
  simp only [List.length_append, List.length_replicate]
  omega

theorem digitsVal_padDigits (w n : Nat) : digitsVal (padDigits w n) = n := by
  unfold padDigits
  rw [digitsVal_replicate_zero, digitsVal_natDigits]

theorem minuteStamp_inj (t t' : LocalDateTime) (ht : StampInBounds t) (ht' : StampInBounds t')
    (h : minuteStamp t = minuteStamp t') :
    t.year = t'.year ∧ t.month = t'.month ∧ t.day = t'.day ∧
      t.hour = t'.hour ∧ t.minute = t'.minute := by
  obtain ⟨hy, hmo, hd, hh, hmi⟩ := ht
  obtain ⟨hy', hmo', hd', hh', hmi'⟩ := ht'
  unfold minuteStamp at h
  injection h with hlist
  obtain ⟨h4, e5⟩ := List.append_inj' hlist
    (by rw [padDigits_length 2 t.minute (by simpa using hmi) (by omega),
      padDigits_length 2 t'.minute (by simpa using hmi') (by omega)])
  obtain ⟨h3, e4⟩ := List.append_inj' h4
    (by rw [padDigits_length 2 t.hour (by simpa using hh) (by omega),
      padDigits_length 2 t'.hour (by simpa using hh') (by omega)])
  obtain ⟨h2, e3⟩ := List.append_inj' h3
    (by rw [padDigits_length 2 t.day (by simpa using hd) (by omega),
      padDigits_length 2 t'.day (by simpa using hd') (by omega)])
  obtain ⟨e1, e2⟩ := List.append_inj' h2
    (by rw [padDigits_length 2 t.month (by simpa using hmo) (by omega),
      padDigits_length 2 t'.month (by simpa using hmo') (by omega)])
  refine ⟨?_, ?_, ?_, ?_, ?_⟩
  · have := congrArg digitsVal e1
    rwa [digitsVal_padDigits, digitsVal_padDigits] at this
  · have := congrArg digitsVal e2
    rwa [digitsVal_padDigits, digitsVal_padDigits] at this
  · have := congrArg digitsVal e3
    rwa [digitsVal_padDigits, digitsVal_padDigits] at this
  · have := congrArg digitsVal e4
    rwa [digitsVal_padDigits, digitsVal_padDigits] at this
  · have := congrArg digitsVal e5
    rwa [digitsVal_padDigits, digitsVal_padDigits] at this

theorem dispatchState_invariant (key : String) (s : List String)
    (hnot : key ∉ s) (hne : s.length ≠ 20000) :
    ∀ n : Nat, 1 ≤ n →
      key ∈ dispatchState key s n ∧ (dispatchState key s n).length ≤ 20000 ∧
        (∀ x ∈ dispatchState key s n, x = key ∨ x ∈ s) := by
  intro n
  induction n with
  | zero => intro h; omega
  | succ n ih =>
    intro _
    by_cases hn : n = 0
    · subst hn
      by_cases hbig : s.length > 20000
      · have h1 : shouldDispatch key s = (true, [key]) := by
          unfold shouldDispatch
          rw [if_pos hbig, if_neg (by simp : ¬ key ∈ ([] : List String))]
        rw [show dispatchState key s 1 = (shouldDispatch key s).2 from rfl, h1]
        refine ⟨List.mem_singleton.mpr rfl, by simp, ?_⟩
        intro x hx
        simp only [List.mem_singleton] at hx
        exact Or.inl hx
      · have h1 : shouldDispatch key s = (true, key :: s) := by
          unfold shouldDispatch
          rw [if_neg hbig, if_neg hnot]
        rw [show dispatchState key s 1 = (shouldDispatch key s).2 from rfl, h1]
        refine ⟨List.mem_cons_self _ _, by simp; omega, ?_⟩
        intro x hx
        rcases List.mem_cons.mp hx with rfl | hx2
        · exact Or.inl rfl
        · exact Or.inr hx2
    · obtain ⟨hkey, hlen, hsub⟩ := ih (by omega)
      have h1 : shouldDispatch key (dispatchState key s n) =
          (false, dispatchState key s n) := by
        unfold shouldDispatch
        rw [if_neg (by omega : ¬ (dispatchState key s n).length > 20000), if_pos hkey]
      rw [show dispatchState key s (n + 1) =
          (shouldDispatch key (dispatchState key s n)).2 from rfl, h1]
      exact ⟨hkey, hlen, hsub⟩

/-- C1 counterexample helper: with the guard holding exactly 20000 keys and
the fresh key absent, both the first and the second check-and-insert for
the same key return `true`: the first insertion lifts the count to 20001,
so the second call clears the entire set and re-admits the key. -/
theorem shouldDispatch_twice_at_mark (s : List String) (key : String)
    (hlen : s.length = 20000) (hnot : key ∉ s) :
    (shouldDispatch key s).1 = true ∧
      (shouldDispatch key (shouldDispatch key s).2).1 = true := by
  have h1 : shouldDispatch key s = (true, key :: s) := by
    unfold shouldDispatch
    rw [if_neg (by omega : ¬ s.length > 20000), if_neg hnot]
  constructor
  · rw [h1]
  · rw [h1]
    show (shouldDispatch key (key :: s)).1 = true
    unfold shouldDispatch
    rw [if_pos (by simp [hlen] : (key :: s).length > 20000)]
    rw [if_neg (by simp : ¬ key ∈ ([] : List String))]

theorem manyKeys_nodup (n : Nat) : (manyKeys n).Nodup := by
  refine List.Nodup.map ?_ (List.nodup_range n)
  intro a b h
  apply natDigits_inj
  injection h

theorem x_not_mem_manyKeys (n : Nat) : "x" ∉ manyKeys n := by
  intro h
  obtain ⟨i, _, heq⟩ := List.mem_map.mp h
  have hdata : natDigits i = ['x'] := congrArg String.data heq
  have : 'x' ∈ natDigits i := by rw [hdata]; exact List.mem_singleton.mpr rfl
  have := natDigits_all_digits i 'x' this
  simp at this

theorem dedup_part2_core (planId : String) (t t' : LocalDateTime)
    (ht : StampInBounds t) (ht' : StampInBounds t')
    (hne : ¬(t.year = t'.year ∧ t.month = t'.month ∧ t.day = t'.day ∧
      t.hour = t'.hour ∧ t.minute = t'.minute)) :
    dedupKey planId (minuteStamp t) ≠ dedupKey planId (minuteStamp t') := by
  intro heq
  unfold dedupKey at heq
  have hdata := congrArg String.data heq
  simp only [String.data_append, List.append_assoc] at hdata
  have h1 := List.append_cancel_left hdata
  have h2 := List.append_cancel_left h1
  exact hne (minuteStamp_inj t t' ht ht' (String.ext h2))

/-- C1 (amended): for a fixed plan id and calendar minute, provided the
guard does not hold exactly 20000 keys when the first call occurs, the
dedup guard's check-and-insert returns true exactly once across any number
of calls with that key: the first call inserts the key and allows
dispatch, every later call finds it present and returns false; a different
key — absent from the guard — remains eligible after any number of such
calls, and the keys of two different calendar minutes are always different
(so the same plan becomes eligible again in the following minute).  The
size-20000 exclusion is forced by the clear-all policy: from exactly
20000 keys the insertion reaches 20001 and the next call clears the set
and re-dispatches (see the counterexample). -/
theorem dedup_once_per_minute :
    (∀ (key : String) (s : List String), key ∉ s → s.length ≠ 20000 →
      (shouldDispatch key s).1 = true ∧
      (∀ n : Nat, 1 ≤ n → (shouldDispatch key (dispatchState key s n)).1 = false) ∧
      (∀ key2 : String, key2 ≠ key → key2 ∉ s →
        ∀ n : Nat, (shouldDispatch key2 (dispatchState key s n)).1 = true)) ∧
    (∀ (planId : String) (t t' : LocalDateTime), StampInBounds t → StampInBounds t' →
      ¬(t.year = t'.year ∧ t.month = t'.month ∧ t.day = t'.day ∧
        t.hour = t'.hour ∧ t.minute = t'.minute) →
      dedupKey planId (minuteStamp t) ≠ dedupKey planId (minuteStamp t')) := by
  constructor
  · intro key s hnot hne
    refine ⟨?_, ?_, ?_⟩
    · unfold shouldDispatch
      by_cases hbig : s.length > 20000
      · rw [if_pos hbig, if_neg (by simp : ¬ key ∈ ([] : List String))]
      · rw [if_neg hbig, if_neg hnot]
    · intro n hn
      obtain ⟨hkey, hlen, _⟩ := dispatchState_invariant key s hnot hne n hn
      unfold shouldDispatch
      rw [if_neg (by omega : ¬ (dispatchState key s n).length > 20000), if_pos hkey]
    · intro key2 hk2 hk2s n
      by_cases hn : n = 0
      · subst hn
        show (shouldDispatch key2 s).1 = true
        unfold shouldDispatch
        by_cases hbig : s.length > 20000
        · rw [if_pos hbig, if_neg (by simp : ¬ key2 ∈ ([] : List String))]
        · rw [if_neg hbig, if_neg hk2s]
      · obtain ⟨_, hlen, hsub⟩ := dispatchState_invariant key s hnot hne n (by omega)
        have hk2st : key2 ∉ dispatchState key s n := by
          intro hmem
          rcases hsub key2 hmem with rfl | h
          · exact hk2 rfl
          · exact hk2s h
        unfold shouldDispatch
        rw [if_neg (by omega : ¬ (dispatchState key s n).length > 20000), if_neg hk2st]
  · exact dedup_part2_core

/-- C1 counterexample: a dedup guard holding exactly 20000 distinct keys
(none of them the fresh key `x`) lets the same key dispatch twice within
the same minute: the first check-and-insert returns true and raises the
count to 20001, so the second check-and-insert clears the whole set and
returns true again — refuting "returns true exactly once across any number
of calls within that minute". -/
theorem dedup_counterexample :
    (manyKeys 20000).Nodup ∧
    "x" ∉ manyKeys 20000 ∧
    (shouldDispatch "x" (manyKeys 20000)).1 = true ∧
    (shouldDispatch "x" (shouldDispatch "x" (manyKeys 20000)).2).1 = true := by
  have hlen : (manyKeys 20000).length = 20000 := by
    simp only [manyKeys, List.length_map, List.length_range]
  obtain ⟨h1, h2⟩ :=
    shouldDispatch_twice_at_mark (manyKeys 20000) "x" hlen (x_not_mem_manyKeys 20000)
  exact ⟨manyKeys_nodup 20000, x_not_mem_manyKeys 20000, h1, h2⟩

/-- Witness for `dedup_once_per_minute`: a fresh key on the empty guard
dispatches once, is refused on the three following ticks of the same
minute, a second plan's key stays eligible, and the keys of minutes
2024-01-01 00:00 and 00:01 differ. -/
theorem dedup_once_per_minute_witness :
    (shouldDispatch "p1:202401010000" []).1 = true ∧
    (shouldDispatch "p1:202401010000" (dispatchState "p1:202401010000" [] 3)).1 = false ∧
    (shouldDispatch "p2:202401010000" (dispatchState "p1:202401010000" [] 3)).1 = true ∧
    dedupKey "p1" (minuteStamp ⟨2024, 1, 1, 0, 0, 0⟩) ≠
      dedupKey "p1" (minuteStamp ⟨2024, 1, 1, 0, 1, 0⟩) :=
  ⟨(dedup_once_per_minute.1 "p1:202401010000" [] (by simp) (by simp)).1,
   (dedup_once_per_minute.1 "p1:202401010000" [] (by simp) (by simp)).2.1 3 (by omega),
   (dedup_once_per_minute.1 "p1:202401010000" [] (by simp) (by simp)).2.2
     "p2:202401010000" (by decide) (by simp) 3,
   dedup_once_per_minute.2 "p1" ⟨2024, 1, 1, 0, 0, 0⟩ ⟨2024, 1, 1, 0, 1, 0⟩
     ⟨by norm_num, by norm_num, by norm_num, by norm_num, by norm_num⟩
     ⟨by norm_num, by norm_num, by norm_num, by norm_num, by norm_num⟩
     (by simp)⟩

end Glare
